import Mathlib

/-!
Verification of the `speechbrain/processing/signal_processing.py` module.

Shallow embedding conventions:

* Tensors are total functions from (natural-number) indices to rational
  entries; a tensor of shape `[B, K, n, n]` is a function `ℕ → ℕ → ℕ → ℕ → ℚ`
  together with the bounds carried by each theorem.  Out-of-range entries of a
  freshly allocated (`torch.zeros`) tensor are `0`.
* Float arithmetic is modelled by exact rational arithmetic: the operations the
  claims quantify over (copy, negation, addition, multiplication) are exact in
  the same way on both sides.
* External linear-algebra collaborators (`torch.cholesky`, `torch.inverse`,
  `torch.symeig`, FFT primitives, `torch.blackman_window`, `torch.sin`,
  `torch.nn.functional.pad`, `torch.nn.functional.conv1d`) are oracle
  parameters: the theorems hold for every choice of oracle, exactly as the
  spec treats them as black boxes.
* Python exceptions are modelled by `Except Err`; `Err.valueError` is an
  explicitly raised `ValueError` (the spec's `ShapeError` kind),
  `Err.broadcastMismatch` is a shape/broadcast failure raised inside a torch
  indexing primitive (no explicit `raise` in this module), and
  `Err.assertionError` is a failed `assert`.
-/

namespace SignalProcessing

/-- Rank-3 real tensor (e.g. a waveform batch `[B, T, C]`). -/
abbrev T3 : Type := ℕ → ℕ → ℕ → ℚ

/-- Rank-4 real tensor (e.g. a block-matrix batch `[B, K, 2C, 2C]`). -/
abbrev T4 : Type := ℕ → ℕ → ℕ → ℕ → ℚ

/-- Rank-5 real tensor (e.g. a complex-matrix batch `[B, K, C, C, 2]`). -/
abbrev T5 : Type := ℕ → ℕ → ℕ → ℕ → ℕ → ℚ

/-- Packed Hermitian batch of shape `[B, 1, K, 2, P]`, with the singleton
axis dropped: argument order is batch, bin, component (0 = real,
1 = imaginary), packed position. -/
abbrev PackedT : Type := ℕ → ℕ → ℕ → ℕ → ℚ

/-- Real block-matrix batch of shape `[B, K, 2C, 2C]`: argument order is
batch, bin, row, column. -/
abbrev BlockT : Type := ℕ → ℕ → ℕ → ℕ → ℚ

/-- Full complex-matrix batch of shape `[B, K, C, C, 2]`: argument order is
batch, bin, row, column, component. -/
abbrev CMatT : Type := ℕ → ℕ → ℕ → ℕ → ℕ → ℚ

/-- Error kinds observable from this module.  `valueError` is the explicit
`raise ValueError` in `convolve1d` (the spec's `ShapeError`);
`broadcastMismatch` is the shape-mismatch error a torch indexing assignment
raises when the value tensor cannot broadcast onto the indexed positions;
`assertionError` is a failed `assert` in `notch_filter`. -/
inductive Err where
  | valueError
  | broadcastMismatch
  | assertionError
deriving DecidableEq

/-- Executable integer square root (largest `k` with `k * k ≤ n`), written as
a fold so that concrete witnesses evaluate inside the kernel. -/
def isqrt (n : ℕ) : ℕ := ((List.range (n + 1)).filter (fun k => k * k ≤ n)).foldl max 0

theorem foldl_max_le {l : List ℕ} {m init : ℕ} (hinit : init ≤ m)
    (h : ∀ x ∈ l, x ≤ m) : l.foldl max init ≤ m := by
  induction l generalizing init with
  | nil => exact hinit
  | cons a t ih =>
    exact ih (max_le hinit (h a (List.mem_cons_self a t)))
      (fun x hx => h x (List.mem_cons_of_mem _ hx))

theorem init_le_foldl_max (l : List ℕ) (init : ℕ) : init ≤ l.foldl max init := by
  induction l generalizing init with
  | nil => exact le_refl _
  | cons a t ih => exact le_trans (le_max_left _ _) (ih _)

theorem le_foldl_max {l : List ℕ} {x : ℕ} (init : ℕ) (hx : x ∈ l) :
    x ≤ l.foldl max init := by
  induction l generalizing init with
  | nil => cases hx
  | cons a t ih =>
    rcases List.mem_cons.1 hx with rfl | hx'
    · exact le_trans (le_max_right init x) (init_le_foldl_max t _)
    · exact ih _ hx'

theorem isqrt_eq_sqrt (n : ℕ) : isqrt n = Nat.sqrt n := by
  apply le_antisymm
  · apply foldl_max_le (Nat.zero_le _)
    intro x hx
    rw [List.mem_filter] at hx
    exact Nat.le_sqrt.2 (by simpa using hx.2)
  · apply le_foldl_max
    rw [List.mem_filter]
    constructor
    · rw [List.mem_range]
      exact Nat.lt_succ_of_le (Nat.sqrt_le_self n)
    · simpa using Nat.sqrt_le n

/-- The channel count `n_channels = int(round(((1 + 8 * p) ** 0.5 - 1) / 2))`
computed by `EigenH` from a packed length `p`.  Rounding the exact real value
`(sqrt (1 + 8 p) - 1) / 2` to the nearest integer gives `isqrt (8 p + 1) / 2`
(ties are impossible because `8 p + 1` is odd). -/
def nChannels (p : ℕ) : ℕ := isqrt (8 * p + 1) / 2

/-- Row-major upper-triangle index pairs, exactly the columns of
`torch.triu_indices(n, n)`: all `(i, j)` with `i ≤ j < n`, ordered by `i`,
then by `j`. -/
def triu (n : ℕ) : List (ℕ × ℕ) :=
  (List.range n).flatMap (fun i => (List.range (n - i)).map (fun d => (i, i + d)))

theorem mem_triu {n : ℕ} {ij : ℕ × ℕ} :
    ij ∈ triu n ↔ ij.1 ≤ ij.2 ∧ ij.2 < n := by
  cases ij with
  | mk i j =>
    simp only [triu, List.mem_flatMap, List.mem_map, List.mem_range]
    constructor
    · rintro ⟨i', hi', d, hd, h⟩
      cases h
      omega
    · rintro ⟨hij, hj⟩
      exact ⟨i, by omega, j - i, by omega, by simp; omega⟩

theorem nodup_triu (n : ℕ) : (triu n).Nodup := by
  rw [triu, List.nodup_flatMap]
  constructor
  · intro i _
    exact (List.nodup_range _).map (fun a b h => by
      simpa using congrArg Prod.snd h)
  · rw [List.pairwise_iff_getElem]
    intro a b ha hb hab
    simp only [Function.onFun, List.getElem_range]
    intro x hxa hxb
    simp only [List.mem_map, List.mem_range] at hxa hxb
    obtain ⟨d, _, rfl⟩ := hxa
    obtain ⟨d', _, h⟩ := hxb
    have : b = a := by
      have := congrArg Prod.fst h
      simpa using this
    omega

theorem getD_triu_mem {n p : ℕ} (hp : p < (triu n).length) :
    (triu n).getD p (0, 0) ∈ triu n := by
  rw [List.getD_eq_getElem _ _ hp]
  exact List.getElem_mem hp

theorem getD_triu_le {n p : ℕ} (hp : p < (triu n).length) :
    ((triu n).getD p (0, 0)).1 ≤ ((triu n).getD p (0, 0)).2 ∧
      ((triu n).getD p (0, 0)).2 < n :=
  mem_triu.1 (getD_triu_mem hp)

theorem exists_triu_pos {n i j : ℕ} (hij : i ≤ j) (hj : j < n) :
    ∃ p, p < (triu n).length ∧ (triu n).getD p (0, 0) = (i, j) := by
  have hm : (i, j) ∈ triu n := mem_triu.2 ⟨hij, hj⟩
  obtain ⟨p, hp, he⟩ := List.mem_iff_getElem.1 hm
  exact ⟨p, hp, by rw [List.getD_eq_getElem _ _ hp]; exact he⟩

theorem getD_triu_inj {n p q : ℕ} (hp : p < (triu n).length)
    (hq : q < (triu n).length)
    (h : (triu n).getD p (0, 0) = (triu n).getD q (0, 0)) : p = q := by
  rw [List.getD_eq_getElem _ _ hp, List.getD_eq_getElem _ _ hq] at h
  exact ((nodup_triu n).getElem_inj_iff).1 h

theorem length_triu (n : ℕ) : (triu n).length = n * (n + 1) / 2 := by
  have hs : ∀ m : ℕ, ((List.range m).map (fun i => m - i)).sum = m * (m + 1) / 2 := by
    intro m
    induction m with
    | zero => simp
    | succ m ih =>
      rw [List.range_succ_eq_map, List.map_cons, List.map_map, List.sum_cons]
      have : (List.range m).map ((fun i => m + 1 - i) ∘ Nat.succ) =
          (List.range m).map (fun i => m - i) := by
        apply List.map_congr_left
        intro a _
        simp [Function.comp]
      rw [this, ih]
      obtain ⟨t, ht⟩ := Nat.even_mul_succ_self m
      have hexp : (m + 1) * (m + 1 + 1) = m * (m + 1) + 2 * (m + 1) := by ring
      omega
  rw [triu, List.length_flatMap]
  have : (triu n) = (triu n) := rfl
  calc ((List.range n).map
        (fun i => ((List.range (n - i)).map (fun d => (i, i + d))).length)).sum
      = ((List.range n).map (fun i => n - i)).sum := by
        apply congrArg
        apply List.map_congr_left
        intro a _
        simp
    _ = n * (n + 1) / 2 := hs n

/-- `nChannels` recovers `c` exactly on triangular numbers. -/
theorem nChannels_tri (c : ℕ) : nChannels (c * (c + 1) / 2) = c := by
  obtain ⟨t, ht⟩ := Nat.even_mul_succ_self c
  have h8 : 8 * (c * (c + 1) / 2) + 1 = (2 * c + 1) * (2 * c + 1) := by
    have hdiv : c * (c + 1) / 2 = t := by omega
    rw [hdiv]
    nlinarith [ht]
  rw [nChannels, isqrt_eq_sqrt, h8, Nat.sqrt_eq]
  omega

/-- A packed length `P` is triangular exactly when the length of the
upper-triangle index list for the rounded channel count equals `P`; this is
also the condition under which the indexed assignments in `EigenH.f`
broadcast successfully. -/
theorem triangular_iff_length {P : ℕ} :
    (∃ c, P = c * (c + 1) / 2) ↔ (triu (nChannels P)).length = P := by
  constructor
  · rintro ⟨c, rfl⟩
    rw [nChannels_tri, length_triu]
  · intro h
    rw [length_triu] at h
    exact ⟨nChannels P, h.symm⟩

/-! ### Indexed scatter assignment

`torch`'s advanced-indexing assignment `m[..., rows, cols] = vals` pairs
the `t`-th row/column index with the `t`-th value; with duplicate target
positions the later write wins (and across separate statements, statement
order decides).  We model a statement as a fold of single-entry updates in
index order. -/

/-- One entry update: `m[rc] = q`. -/
def setE (m : ℕ → ℕ → ℚ) (rc : ℕ × ℕ) (q : ℚ) : ℕ → ℕ → ℚ :=
  fun r c => if rc = (r, c) then q else m r c

/-- A whole indexed assignment: perform the entry updates left to right. -/
def writes (m : ℕ → ℕ → ℚ) (l : List ((ℕ × ℕ) × ℚ)) : ℕ → ℕ → ℚ :=
  l.foldl (fun acc e => setE acc e.1 e.2) m

theorem writes_nil (m : ℕ → ℕ → ℚ) : writes m [] = m := rfl

theorem writes_cons (m : ℕ → ℕ → ℚ) (e : (ℕ × ℕ) × ℚ) (l : List ((ℕ × ℕ) × ℚ)) :
    writes m (e :: l) = writes (setE m e.1 e.2) l := rfl

theorem writes_eq_of_ne {r c : ℕ} (m : ℕ → ℕ → ℚ) (l : List ((ℕ × ℕ) × ℚ))
    (h : ∀ e ∈ l, e.1 ≠ (r, c)) : writes m l r c = m r c := by
  induction l generalizing m with
  | nil => rfl
  | cons e t ih =>
    rw [writes_cons, ih _ (fun e' he' => h e' (List.mem_cons_of_mem _ he'))]
    have := h e (List.mem_cons_self e t)
    simp [setE, this]

theorem writes_eq_of_mem {r c : ℕ} {q : ℚ} (m : ℕ → ℕ → ℚ)
    (l : List ((ℕ × ℕ) × ℚ)) (hmem : ((r, c), q) ∈ l)
    (hnd : (l.map Prod.fst).Nodup) : writes m l r c = q := by
  induction l generalizing m with
  | nil => cases hmem
  | cons e t ih =>
    rw [List.map_cons, List.nodup_cons] at hnd
    rcases List.mem_cons.1 hmem with he | ht
    · subst he
      rw [writes_cons, writes_eq_of_ne]
      · simp [setE]
      · intro e' he' hcon
        apply hnd.1
        have := List.mem_map_of_mem Prod.fst he'
        rwa [hcon] at this
    · rw [writes_cons]
      exact ih _ ht hnd.2

/-- The index/value list of one indexed-assignment statement whose index
tensors are images of the `triu` pair list: the `t`-th written position is
`pos` of the `t`-th pair, the `t`-th value is `val t`. -/
def lineOf (tri : List (ℕ × ℕ)) (pos : ℕ × ℕ → ℕ × ℕ) (val : ℕ → ℚ) :
    List ((ℕ × ℕ) × ℚ) :=
  (List.range tri.length).map (fun p => (pos (tri.getD p (0, 0)), val p))

theorem mem_lineOf {tri : List (ℕ × ℕ)} {pos : ℕ × ℕ → ℕ × ℕ} {val : ℕ → ℚ}
    {e : (ℕ × ℕ) × ℚ} :
    e ∈ lineOf tri pos val ↔
      ∃ p, p < tri.length ∧ e = (pos (tri.getD p (0, 0)), val p) := by
  simp only [lineOf, List.mem_map, List.mem_range]
  constructor
  · rintro ⟨p, hp, rfl⟩; exact ⟨p, hp, rfl⟩
  · rintro ⟨p, hp, rfl⟩; exact ⟨p, hp, rfl⟩

theorem lineOf_pos_nodup {n : ℕ} {pos : ℕ × ℕ → ℕ × ℕ} {val : ℕ → ℚ}
    (hpos : ∀ x y, pos x = pos y → x = y) :
    ((lineOf (triu n) pos val).map Prod.fst).Nodup := by
  rw [lineOf, List.map_map]
  refine List.Nodup.map_on ?_ (List.nodup_range _)
  intro x hx y hy hxy
  rw [List.mem_range] at hx hy
  simp only [Function.comp] at hxy
  exact getD_triu_inj hx hy (hpos _ _ hxy)

theorem writes_lineOf_eq_of_ne {n r c : ℕ} (m : ℕ → ℕ → ℚ)
    (pos : ℕ × ℕ → ℕ × ℕ) (val : ℕ → ℚ)
    (h : ∀ p, p < (triu n).length → pos ((triu n).getD p (0, 0)) ≠ (r, c)) :
    writes m (lineOf (triu n) pos val) r c = m r c := by
  apply writes_eq_of_ne
  intro e he
  obtain ⟨p, hp, rfl⟩ := mem_lineOf.1 he
  exact h p hp

theorem writes_lineOf_eq_of_pos {n r c p : ℕ} (m : ℕ → ℕ → ℚ)
    (pos : ℕ × ℕ → ℕ × ℕ) (val : ℕ → ℚ)
    (hpos : ∀ x y, pos x = pos y → x = y)
    (hp : p < (triu n).length) (hrc : pos ((triu n).getD p (0, 0)) = (r, c)) :
    writes m (lineOf (triu n) pos val) r c = val p := by
  apply writes_eq_of_mem
  · exact mem_lineOf.2 ⟨p, hp, by rw [hrc]⟩
  · exact lineOf_pos_nodup hpos

namespace EigenH

/-- `EigenH.g`: encode a full complex matrix batch `[B, K, C, C, 2]` as the
real block matrix batch `[B, K, 2C, 2C]`.  The four strided-slice assignments
of the source are disjoint and together cover every in-range position, so the
result is written entrywise by parity of row and column. -/
def g (C : ℕ) (ws : CMatT) : BlockT := fun b k r c =>
  if r < 2 * C ∧ c < 2 * C then
    if r % 2 = 0 then
      if c % 2 = 0 then ws b k (r / 2) (c / 2) 0
      else -(ws b k (r / 2) (c / 2) 1)
    else
      if c % 2 = 0 then ws b k (r / 2) (c / 2) 1
      else ws b k (r / 2) (c / 2) 0
  else 0

/-- `EigenH.ginv`: decode a real block matrix batch `[B, K, 2C, 2C]` back to a
full complex matrix batch `[B, K, C, C, 2]`, reading the real part at
even-even positions and the imaginary part at odd-even positions. -/
def ginv (C : ℕ) (wsh : BlockT) : CMatT := fun b k i j comp =>
  if i < C ∧ j < C then
    if comp = 0 then wsh b k (2 * i) (2 * j)
    else if comp = 1 then wsh b k (2 * i + 1) (2 * j)
    else 0
  else 0

/-- One `(batch, bin)` slice of `EigenH.f`: starting from `torch.zeros`,
perform the eight indexed-assignment statements of the source in program
order.  `w comp p` is the packed input entry (after the transpose/squeeze)
at component `comp` and packed position `p`. -/
def fSlice (C : ℕ) (w : ℕ → ℕ → ℚ) : ℕ → ℕ → ℚ :=
  let tri := triu C
  let m0 : ℕ → ℕ → ℚ := fun _ _ => 0
  let m1 := writes m0 (lineOf tri (fun ij => (ij.2 * 2, ij.1 * 2)) (w 0))
  let m2 := writes m1 (lineOf tri (fun ij => (ij.1 * 2, ij.2 * 2)) (w 0))
  let m3 := writes m2 (lineOf tri (fun ij => (ij.2 * 2 + 1, ij.1 * 2 + 1)) (w 0))
  let m4 := writes m3 (lineOf tri (fun ij => (ij.1 * 2 + 1, ij.2 * 2 + 1)) (w 0))
  let m5 := writes m4 (lineOf tri (fun ij => (ij.1 * 2, ij.2 * 2 + 1)) (fun p => -(w 1 p)))
  let m6 := writes m5 (lineOf tri (fun ij => (ij.2 * 2 + 1, ij.1 * 2)) (fun p => -(w 1 p)))
  let m7 := writes m6 (lineOf tri (fun ij => (ij.1 * 2 + 1, ij.2 * 2)) (w 1))
  let m8 := writes m7 (lineOf tri (fun ij => (ij.2 * 2, ij.1 * 2 + 1)) (w 1))
  m8

/-- The successful result of `EigenH.f` on a packed batch with packed length
`P`: each `(batch, bin)` slice is filled by `fSlice` with the channel count
rounded from `P`. -/
def fBlock (P : ℕ) (ws : PackedT) : BlockT :=
  fun b k => fSlice (nChannels P) (fun comp p => ws b k comp p)

/-- The indexed assignments of `EigenH.f` broadcast the value tensor (last
dimension `P`) onto the indexed positions (one per `triu` pair); this
succeeds exactly when the counts agree, or degenerately when `P = 1`. -/
def fGuard (P : ℕ) : Prop := (triu (nChannels P)).length = P ∨ P = 1

instance (P : ℕ) : Decidable (fGuard P) := by
  unfold fGuard
  infer_instance

/-- `EigenH.f`: encode a packed Hermitian batch `[B, 1, K, 2, P]` as a real
block matrix batch `[B, K, 2C, 2C]`.  The source computes the rounded channel
count with no validation; when the indexed assignment cannot broadcast the
`P` packed values onto the `C (C + 1) / 2` triangle positions, torch raises a
shape-mismatch error. -/
def f (P : ℕ) (ws : PackedT) : Except Err BlockT :=
  if fGuard P then Except.ok (fBlock P ws) else Except.error Err.broadcastMismatch

/-- `EigenH.finv`: extract the packed form `[B, 1, K, 2, P]` from a block
matrix batch `[B, K, 2C, 2C]`, reading the real part at even-even positions
and the negated imaginary part from the even-row/odd-column positions. -/
def finv (C : ℕ) (wsh : BlockT) : PackedT := fun b k comp p =>
  if p < (triu C).length then
    if comp = 0 then wsh b k (2 * ((triu C).getD p (0, 0)).1) (2 * ((triu C).getD p (0, 0)).2)
    else if comp = 1 then
      -(wsh b k (2 * ((triu C).getD p (0, 0)).1) (2 * ((triu C).getD p (0, 0)).2 + 1))
    else 0
  else 0

/-! ### Entry-level characterization of `fSlice`

For a pair `(a, b)` with `a ≤ b < C` stored at packed position `p`, we trace
the eight assignment statements in program order.  On the strict upper
triangle each position is written exactly once; on the diagonal the two
imaginary-part statements collide and the later statement wins. -/

theorem fSlice_ee (C : ℕ) (w : ℕ → ℕ → ℚ) {a b p : ℕ}
    (hab : a ≤ b) (hb : b < C) (hp : p < (triu C).length)
    (hpair : (triu C).getD p (0, 0) = (a, b)) :
    fSlice C w (a * 2) (b * 2) = w 0 p ∧ fSlice C w (b * 2) (a * 2) = w 0 p := by
  simp only [fSlice]
  constructor
  · rw [writes_lineOf_eq_of_ne _ _ _ (by
      intro q hq hcon
      rw [Prod.mk.injEq] at hcon
      omega)]
    rw [writes_lineOf_eq_of_ne _ _ _ (by
      intro q hq hcon
      rw [Prod.mk.injEq] at hcon
      omega)]
    rw [writes_lineOf_eq_of_ne _ _ _ (by
      intro q hq hcon
      rw [Prod.mk.injEq] at hcon
      omega)]
    rw [writes_lineOf_eq_of_ne _ _ _ (by
      intro q hq hcon
      rw [Prod.mk.injEq] at hcon
      omega)]
    rw [writes_lineOf_eq_of_ne _ _ _ (by
      intro q hq hcon
      rw [Prod.mk.injEq] at hcon
      omega)]
    rw [writes_lineOf_eq_of_ne _ _ _ (by
      intro q hq hcon
      rw [Prod.mk.injEq] at hcon
      omega)]
    exact writes_lineOf_eq_of_pos _ _ _
      (by intro x y h; cases x; cases y; simp only [Prod.mk.injEq] at h ⊢; omega)
      hp (by rw [hpair])
  · rw [writes_lineOf_eq_of_ne _ _ _ (by
      intro q hq hcon
      rw [Prod.mk.injEq] at hcon
      omega)]
    rw [writes_lineOf_eq_of_ne _ _ _ (by
      intro q hq hcon
      rw [Prod.mk.injEq] at hcon
      omega)]
    rw [writes_lineOf_eq_of_ne _ _ _ (by
      intro q hq hcon
      rw [Prod.mk.injEq] at hcon
      omega)]
    rw [writes_lineOf_eq_of_ne _ _ _ (by
      intro q hq hcon
      rw [Prod.mk.injEq] at hcon
      omega)]
    rw [writes_lineOf_eq_of_ne _ _ _ (by
      intro q hq hcon
      rw [Prod.mk.injEq] at hcon
      omega)]
    rw [writes_lineOf_eq_of_ne _ _ _ (by
      intro q hq hcon
      rw [Prod.mk.injEq] at hcon
      omega)]
    by_cases hEq : a = b
    · subst hEq
      exact writes_lineOf_eq_of_pos _ _ _
        (by intro x y h; cases x; cases y; simp only [Prod.mk.injEq] at h ⊢; omega)
        hp (by rw [hpair])
    · rw [writes_lineOf_eq_of_ne _ _ _ (by
        intro q hq hcon
        have := getD_triu_le hq
        rw [Prod.mk.injEq] at hcon
        omega)]
      exact writes_lineOf_eq_of_pos _ _ _
        (by intro x y h; cases x; cases y; simp only [Prod.mk.injEq] at h ⊢; omega)
        hp (by rw [hpair])

theorem fSlice_oo (C : ℕ) (w : ℕ → ℕ → ℚ) {a b p : ℕ}
    (hab : a ≤ b) (hb : b < C) (hp : p < (triu C).length)
    (hpair : (triu C).getD p (0, 0) = (a, b)) :
    fSlice C w (a * 2 + 1) (b * 2 + 1) = w 0 p ∧
      fSlice C w (b * 2 + 1) (a * 2 + 1) = w 0 p := by
  simp only [fSlice]
  constructor
  · rw [writes_lineOf_eq_of_ne _ _ _ (by
      intro q hq hcon
      rw [Prod.mk.injEq] at hcon
      omega)]
    rw [writes_lineOf_eq_of_ne _ _ _ (by
      intro q hq hcon
      rw [Prod.mk.injEq] at hcon
      omega)]
    rw [writes_lineOf_eq_of_ne _ _ _ (by
      intro q hq hcon
      rw [Prod.mk.injEq] at hcon
      omega)]
    rw [writes_lineOf_eq_of_ne _ _ _ (by
      intro q hq hcon
      rw [Prod.mk.injEq] at hcon
      omega)]
    exact writes_lineOf_eq_of_pos _ _ _
      (by intro x y h; cases x; cases y; simp only [Prod.mk.injEq] at h ⊢; omega)
      hp (by rw [hpair])
  · rw [writes_lineOf_eq_of_ne _ _ _ (by
      intro q hq hcon
      rw [Prod.mk.injEq] at hcon
      omega)]
    rw [writes_lineOf_eq_of_ne _ _ _ (by
      intro q hq hcon
      rw [Prod.mk.injEq] at hcon
      omega)]
    rw [writes_lineOf_eq_of_ne _ _ _ (by
      intro q hq hcon
      rw [Prod.mk.injEq] at hcon
      omega)]
    rw [writes_lineOf_eq_of_ne _ _ _ (by
      intro q hq hcon
      rw [Prod.mk.injEq] at hcon
      omega)]
    by_cases hEq : a = b
    · subst hEq
      exact writes_lineOf_eq_of_pos _ _ _
        (by intro x y h; cases x; cases y; simp only [Prod.mk.injEq] at h ⊢; omega)
        hp (by rw [hpair])
    · rw [writes_lineOf_eq_of_ne _ _ _ (by
        intro q hq hcon
        have := getD_triu_le hq
        rw [Prod.mk.injEq] at hcon
        omega)]
      exact writes_lineOf_eq_of_pos _ _ _
        (by intro x y h; cases x; cases y; simp only [Prod.mk.injEq] at h ⊢; omega)
        hp (by rw [hpair])

theorem fSlice_oe (C : ℕ) (w : ℕ → ℕ → ℚ) {a b p : ℕ}
    (hab : a ≤ b) (hb : b < C) (hp : p < (triu C).length)
    (hpair : (triu C).getD p (0, 0) = (a, b)) :
    fSlice C w (a * 2 + 1) (b * 2) = w 1 p ∧
      fSlice C w (b * 2 + 1) (a * 2) = (if a = b then w 1 p else -(w 1 p)) := by
  simp only [fSlice]
  constructor
  · rw [writes_lineOf_eq_of_ne _ _ _ (by
      intro q hq hcon
      rw [Prod.mk.injEq] at hcon
      omega)]
    exact writes_lineOf_eq_of_pos _ _ _
      (by intro x y h; cases x; cases y; simp only [Prod.mk.injEq] at h ⊢; omega)
      hp (by rw [hpair])
  · rw [writes_lineOf_eq_of_ne _ _ _ (by
      intro q hq hcon
      rw [Prod.mk.injEq] at hcon
      omega)]
    by_cases hEq : a = b
    · subst hEq
      rw [if_pos rfl]
      exact writes_lineOf_eq_of_pos _ _ _
        (by intro x y h; cases x; cases y; simp only [Prod.mk.injEq] at h ⊢; omega)
        hp (by rw [hpair])
    · rw [if_neg hEq]
      rw [writes_lineOf_eq_of_ne _ _ _ (by
        intro q hq hcon
        have := getD_triu_le hq
        rw [Prod.mk.injEq] at hcon
        omega)]
      exact writes_lineOf_eq_of_pos _ _ _
        (by intro x y h; cases x; cases y; simp only [Prod.mk.injEq] at h ⊢; omega)
        hp (by rw [hpair])

theorem fSlice_eo (C : ℕ) (w : ℕ → ℕ → ℚ) {a b p : ℕ}
    (hab : a ≤ b) (hb : b < C) (hp : p < (triu C).length)
    (hpair : (triu C).getD p (0, 0) = (a, b)) :
    fSlice C w (b * 2) (a * 2 + 1) = w 1 p ∧
      fSlice C w (a * 2) (b * 2 + 1) = (if a = b then w 1 p else -(w 1 p)) := by
  simp only [fSlice]
  constructor
  · exact writes_lineOf_eq_of_pos _ _ _
      (by intro x y h; cases x; cases y; simp only [Prod.mk.injEq] at h ⊢; omega)
      hp (by rw [hpair])
  · by_cases hEq : a = b
    · subst hEq
      rw [if_pos rfl]
      exact writes_lineOf_eq_of_pos _ _ _
        (by intro x y h; cases x; cases y; simp only [Prod.mk.injEq] at h ⊢; omega)
        hp (by rw [hpair])
    · rw [if_neg hEq]
      rw [writes_lineOf_eq_of_ne _ _ _ (by
        intro q hq hcon
        have := getD_triu_le hq
        rw [Prod.mk.injEq] at hcon
        omega)]
      rw [writes_lineOf_eq_of_ne _ _ _ (by
        intro q hq hcon
        rw [Prod.mk.injEq] at hcon
        omega)]
      rw [writes_lineOf_eq_of_ne _ _ _ (by
        intro q hq hcon
        rw [Prod.mk.injEq] at hcon
        omega)]
      exact writes_lineOf_eq_of_pos _ _ _
        (by intro x y h; cases x; cases y; simp only [Prod.mk.injEq] at h ⊢; omega)
        hp (by rw [hpair])

theorem fSlice_oob (C : ℕ) (w : ℕ → ℕ → ℚ) {r c : ℕ}
    (h : 2 * C ≤ r ∨ 2 * C ≤ c) : fSlice C w r c = 0 := by
  simp only [fSlice]
  iterate 8
    rw [writes_lineOf_eq_of_ne _ _ _ (by
      intro q hq hcon
      have := getD_triu_le hq
      rw [Prod.mk.injEq] at hcon
      omega)]

/-- When the broadcast guard holds, the triangle index list has exactly `P`
entries (the degenerate `P = 1` branch coincides). -/
theorem fGuard_length {P : ℕ} (h : fGuard P) : (triu (nChannels P)).length = P := by
  rcases h with h | h
  · exact h
  · subst h
    decide

theorem f_ok_iff {P : ℕ} {ws : PackedT} {M : BlockT} :
    f P ws = Except.ok M ↔ fGuard P ∧ M = fBlock P ws := by
  unfold f
  split
  · constructor
    · intro h
      cases h
      exact ⟨by assumption, rfl⟩
    · rintro ⟨-, rfl⟩
      rfl
  · constructor
    · intro h
      cases h
    · rintro ⟨hg, -⟩
      exact absurd hg (by assumption)

/-- C1 (`ginv ∘ g` round trip): decoding recovers every real and imaginary
entry of every complex matrix batch, exactly. -/
theorem ginv_g_roundtrip (C : ℕ) (w : CMatT) (b k i j comp : ℕ)
    (hi : i < C) (hj : j < C) (hcomp : comp < 2) :
    ginv C (g C w) b k i j comp = w b k i j comp := by
  have h2i : 2 * i < 2 * C := by omega
  have h2j : 2 * j < 2 * C := by omega
  have h2i1 : 2 * i + 1 < 2 * C := by omega
  have hmod : (2 * i) % 2 = 0 := by omega
  have hmod1 : (2 * i + 1) % 2 = 1 := by omega
  have hmodj : (2 * j) % 2 = 0 := by omega
  have hdiv : (2 * i) / 2 = i := by omega
  have hdiv1 : (2 * i + 1) / 2 = i := by omega
  have hdivj : (2 * j) / 2 = j := by omega
  interval_cases comp
  · simp [ginv, g, hi, hj, h2i, h2j, hmod, hmodj, hdiv, hdivj]
  · simp [ginv, g, hi, hj, h2i1, h2j, hmod1, hmodj, hdiv1, hdivj]

/-- Witness for `ginv_g_roundtrip` at a concrete input. -/
def wEx : CMatT := fun b k i j comp => (b : ℚ) + k + 2 * i + 3 * j + 5 * comp

theorem ginv_g_roundtrip_witness :
    ginv 2 (g 2 wEx) 0 0 1 0 1 = wEx 0 0 1 0 1 :=
  ginv_g_roundtrip 2 wEx 0 0 1 0 1 (by decide) (by decide) (by decide)

/-- C3 (`finv ∘ f` round trip on Hermitian-consistent input): when the packed
input has zero imaginary part at every diagonal position, `finv` recovers the
packed input from the block matrix produced by `f`. -/
theorem finv_f_roundtrip (P : ℕ) (ws : PackedT) (M : BlockT)
    (hf : f P ws = Except.ok M)
    (hdiag : ∀ b k p, p < P →
      ((triu (nChannels P)).getD p (0, 0)).1 = ((triu (nChannels P)).getD p (0, 0)).2 →
      ws b k 1 p = 0)
    (b k comp p : ℕ) (hcomp : comp < 2) (hp : p < P) :
    finv (nChannels P) M b k comp p = ws b k comp p := by
  obtain ⟨hg, rfl⟩ := f_ok_iff.1 hf
  have hlen := fGuard_length hg
  have hp' : p < (triu (nChannels P)).length := by omega
  obtain ⟨hij, hjC⟩ := getD_triu_le hp'
  set ij := (triu (nChannels P)).getD p (0, 0) with hij_def
  have hpair : (triu (nChannels P)).getD p (0, 0) = (ij.1, ij.2) := by
    rw [← hij_def]
  have hee := fSlice_ee (nChannels P) (fun comp q => ws b k comp q) hij hjC hp' hpair
  have heo := fSlice_eo (nChannels P) (fun comp q => ws b k comp q) hij hjC hp' hpair
  interval_cases comp
  · have h1 : 2 * ij.1 = ij.1 * 2 := by omega
    have h2 : 2 * ij.2 = ij.2 * 2 := by omega
    simp only [finv, if_pos hp', if_pos rfl, fBlock, h1, h2]
    exact hee.1
  · have h1 : 2 * ij.1 = ij.1 * 2 := by omega
    have h2 : 2 * ij.2 + 1 = ij.2 * 2 + 1 := by omega
    simp only [finv, if_pos hp', fBlock, h1, h2]
    norm_num
    rw [heo.2]
    by_cases hd : ij.1 = ij.2
    · rw [if_pos hd, hdiag b k p hp hd]
      simp [hdiag b k p hp hd]
    · rw [if_neg hd]
      simp

/-- Witness for `finv_f_roundtrip` at a concrete input: `C = 2`, `P = 3`,
an input with zero imaginary diagonal. -/
def wsHermEx : PackedT := fun b k comp p =>
  if comp = 0 then (b : ℚ) + k + p + 1
  else if p = 1 then 7 else 0

theorem finv_f_roundtrip_witness :
    finv (nChannels 3) (fBlock 3 wsHermEx) 0 0 1 1 = wsHermEx 0 0 1 1 :=
  finv_f_roundtrip 3 wsHermEx (fBlock 3 wsHermEx) (f_ok_iff.2 ⟨by decide, rfl⟩)
    (by
      intro b k p hp hd
      interval_cases p
      · simp [wsHermEx]
      · exact absurd hd (by decide)
      · simp [wsHermEx])
    0 0 1 1 (by decide) (by decide)

/-- The block matrix produced by `fSlice` is symmetric on its `2C × 2C`
range.  (This holds for every packed input: on the diagonal the two
imaginary-part assignments collide and the later one wins on both sides of
the diagonal, so symmetry survives even a nonzero imaginary diagonal.) -/
theorem fSlice_symm (C : ℕ) (w : ℕ → ℕ → ℚ) {r c : ℕ}
    (hr : r < 2 * C) (hc : c < 2 * C) : fSlice C w r c = fSlice C w c r := by
  obtain ⟨a, ha⟩ : ∃ a, r = a * 2 ∨ r = a * 2 + 1 := ⟨r / 2, by omega⟩
  obtain ⟨b, hb⟩ : ∃ b, c = b * 2 ∨ c = b * 2 + 1 := ⟨c / 2, by omega⟩
  rcases ha with rfl | rfl <;> rcases hb with rfl | rfl
  · rcases le_or_lt a b with hab | hba
    · obtain ⟨p, hp, hpair⟩ := @exists_triu_pos C a b hab (by omega)
      have h := fSlice_ee C w hab (by omega) hp hpair
      rw [h.1, h.2]
    · obtain ⟨p, hp, hpair⟩ := @exists_triu_pos C b a hba.le (by omega)
      have h := fSlice_ee C w hba.le (by omega) hp hpair
      rw [h.1, h.2]
  · rcases le_or_lt a b with hab | hba
    · obtain ⟨p, hp, hpair⟩ := @exists_triu_pos C a b hab (by omega)
      have h1 := fSlice_eo C w hab (by omega) hp hpair
      have h2 := fSlice_oe C w hab (by omega) hp hpair
      rw [h1.2, h2.2]
    · obtain ⟨p, hp, hpair⟩ := @exists_triu_pos C b a hba.le (by omega)
      have h1 := fSlice_eo C w hba.le (by omega) hp hpair
      have h2 := fSlice_oe C w hba.le (by omega) hp hpair
      rw [h1.1, h2.1]
  · rcases le_or_lt b a with hba | hab
    · obtain ⟨p, hp, hpair⟩ := @exists_triu_pos C b a hba (by omega)
      have h1 := fSlice_eo C w hba (by omega) hp hpair
      have h2 := fSlice_oe C w hba (by omega) hp hpair
      rw [h1.2, h2.2]
    · obtain ⟨p, hp, hpair⟩ := @exists_triu_pos C a b hab.le (by omega)
      have h1 := fSlice_eo C w hab.le (by omega) hp hpair
      have h2 := fSlice_oe C w hab.le (by omega) hp hpair
      rw [h1.1, h2.1]
  · rcases le_or_lt a b with hab | hba
    · obtain ⟨p, hp, hpair⟩ := @exists_triu_pos C a b hab (by omega)
      have h := fSlice_oo C w hab (by omega) hp hpair
      rw [h.1, h.2]
    · obtain ⟨p, hp, hpair⟩ := @exists_triu_pos C b a hba.le (by omega)
      have h := fSlice_oo C w hba.le (by omega) hp hpair
      rw [h.1, h.2]

/-- C4 (Hermitian consistency): for packed input whose diagonal packed
entries have zero imaginary part, the block matrix produced by `f` equals
its own transpose entry for entry on the `2C × 2C` range. -/
theorem f_hermitian_symmetric (P : ℕ) (ws : PackedT) (M : BlockT)
    (hf : f P ws = Except.ok M)
    (_hdiag : ∀ b k p, p < P →
      ((triu (nChannels P)).getD p (0, 0)).1 = ((triu (nChannels P)).getD p (0, 0)).2 →
      ws b k 1 p = 0)
    (b k r c : ℕ) (hr : r < 2 * nChannels P) (hc : c < 2 * nChannels P) :
    M b k r c = M b k c r := by
  obtain ⟨-, rfl⟩ := f_ok_iff.1 hf
  exact fSlice_symm _ _ hr hc

theorem f_hermitian_symmetric_witness :
    fBlock 3 wsHermEx 0 0 1 2 = fBlock 3 wsHermEx 0 0 2 1 :=
  f_hermitian_symmetric 3 wsHermEx (fBlock 3 wsHermEx) (f_ok_iff.2 ⟨by decide, rfl⟩)
    (by
      intro b k p hp hd
      interval_cases p
      · simp [wsHermEx]
      · exact absurd hd (by decide)
      · simp [wsHermEx])
    0 0 1 2 (by decide) (by decide)

/-- C5 amended (write positions of `f`): for the pair `(i, j)` at packed
position `p`, the real part is written at the four positions stated by the
claim; the imaginary part is written at `-x` into `(2i, 2j+1)` and
`(2j+1, 2i)` only for strictly off-diagonal pairs `i < j`, while
`(2i+1, 2j)` and `(2j, 2i+1)` always receive `+x` — on the diagonal the two
imaginary-part statements target the same positions and the later `+x`
write wins, so both mixed diagonal positions hold `+x`, not `-x`. -/
theorem f_write_positions (P : ℕ) (ws : PackedT) (M : BlockT)
    (hf : f P ws = Except.ok M) (b k p i j : ℕ) (hp : p < P)
    (hpair : (triu (nChannels P)).getD p (0, 0) = (i, j)) :
    M b k (2 * j) (2 * i) = ws b k 0 p ∧
    M b k (2 * i) (2 * j) = ws b k 0 p ∧
    M b k (2 * j + 1) (2 * i + 1) = ws b k 0 p ∧
    M b k (2 * i + 1) (2 * j + 1) = ws b k 0 p ∧
    (i < j → M b k (2 * i) (2 * j + 1) = -(ws b k 1 p) ∧
      M b k (2 * j + 1) (2 * i) = -(ws b k 1 p)) ∧
    M b k (2 * i + 1) (2 * j) = ws b k 1 p ∧
    M b k (2 * j) (2 * i + 1) = ws b k 1 p := by
  obtain ⟨hg, rfl⟩ := f_ok_iff.1 hf
  have hlen := fGuard_length hg
  have hp' : p < (triu (nChannels P)).length := by omega
  have hle := getD_triu_le hp'
  rw [hpair] at hle
  have hee := fSlice_ee (nChannels P) (fun comp q => ws b k comp q) hle.1 hle.2 hp' hpair
  have hoo := fSlice_oo (nChannels P) (fun comp q => ws b k comp q) hle.1 hle.2 hp' hpair
  have hoe := fSlice_oe (nChannels P) (fun comp q => ws b k comp q) hle.1 hle.2 hp' hpair
  have heo := fSlice_eo (nChannels P) (fun comp q => ws b k comp q) hle.1 hle.2 hp' hpair
  have e1 : 2 * i = i * 2 := by omega
  have e2 : 2 * j = j * 2 := by omega
  refine ⟨?_, ?_, ?_, ?_, ?_, ?_, ?_⟩
  · simpa [fBlock, e1, e2] using hee.2
  · simpa [fBlock, e1, e2] using hee.1
  · simpa [fBlock, e1, e2] using hoo.2
  · simpa [fBlock, e1, e2] using hoo.1
  · intro hlt
    constructor
    · have := heo.2
      rw [if_neg (Nat.ne_of_lt hlt)] at this
      simpa [fBlock, e1, e2] using this
    · have := hoe.2
      rw [if_neg (Nat.ne_of_lt hlt)] at this
      simpa [fBlock, e1, e2] using this
  · simpa [fBlock, e1, e2] using hoe.1
  · simpa [fBlock, e1, e2] using heo.1

theorem f_write_positions_witness :
    fBlock 3 wsHermEx 0 0 (2 * 1 + 1) (2 * 0) = -(wsHermEx 0 0 1 1) :=
  ((f_write_positions 3 wsHermEx (fBlock 3 wsHermEx) (f_ok_iff.2 ⟨by decide, rfl⟩)
    0 0 1 0 1 (by decide) (by decide)).2.2.2.2.1 (by decide)).2

/-- Packed input for the C5 counterexample: a single channel (`C = 1`,
`P = 1`) whose only (diagonal) packed entry has imaginary part `1`. -/
def wsDiagEx : PackedT := fun _ _ comp p => if comp = 1 ∧ p = 0 then 1 else 0

/-- C5 counterexample: for the diagonal pair `i = j = 0` at packed position
`p = 0` with imaginary part `x = 1`, the claim demands `-x = -1` at block
position `(2i, 2j+1) = (0, 1)`, but the later assignment statement wins and
the code stores `+x = 1` there. -/
theorem f_diag_write_counterexample :
    f 1 wsDiagEx = Except.ok (fBlock 1 wsDiagEx) ∧
    fBlock 1 wsDiagEx 0 0 0 1 = 1 ∧
    ¬ (fBlock 1 wsDiagEx 0 0 0 1 = -(wsDiagEx 0 0 1 0)) :=
  ⟨f_ok_iff.2 ⟨by decide, rfl⟩, by decide, by decide⟩

/-! ### Solver layer (`EigenH.forward`)

The dense linear-algebra collaborators (`torch.cholesky`, `torch.inverse`,
`torch.symeig`) are black boxes per the spec; `forward` is parametrized over
them, and every theorem below holds for every choice of oracle. -/

/-- `torch.transpose(x, 2, 3)` on a `[B, K, n, n]` batch. -/
def transposeB (X : BlockT) : BlockT := fun b k r c => X b k c r

/-- Batched `torch.matmul` on `[B, K, n, n]`. -/
def matmulB (n : ℕ) (X Y : BlockT) : BlockT :=
  fun b k r c => ∑ t ∈ Finset.range n, X b k r t * Y b k t c

/-- External dense linear-algebra primitives: Cholesky factor, matrix
inverse, and symmetric eigendecomposition (eigenvalues and eigenvectors). -/
structure Oracles where
  chol : BlockT → BlockT
  inv : BlockT → BlockT
  symeig : BlockT → T3 × BlockT

/-- `torch.stack((torch.eye(C), torch.zeros((C, C))), -1)` broadcast over
batch and bin: the full complex identity matrix batch. -/
def eye (C : ℕ) : CMatT := fun _ _ i j comp =>
  if comp = 0 ∧ i = j ∧ i < C ∧ j < C then 1 else 0

/-- The `B_h` block matrix chosen by `forward`: the `g`-encoded complex
identity when `b` is absent, the `f`-encoded packed matrix otherwise. -/
def bshVal (P : ℕ) (bopt : Option PackedT) : BlockT :=
  match bopt with
  | none => g (nChannels P) (eye (nChannels P))
  | some bb => fBlock P bb

/-- The fallible computation of `B_h` (the `f` path can fail to broadcast). -/
def bshE (P : ℕ) (bopt : Option PackedT) : Except Err BlockT :=
  match bopt with
  | none => Except.ok (g (nChannels P) (eye (nChannels P)))
  | some bb => f P bb

/-- The whitened matrix `C_h = L⁻¹ A_h (L⁻¹)ᵗ` with `L = cholesky B_h`. -/
def cshOf (o : Oracles) (C : ℕ) (ash bsh : BlockT) : BlockT :=
  let lsh := o.chol bsh
  let lsh_inv := o.inv lsh
  let lsh_inv_T := transposeB lsh_inv
  matmulB (2 * C) lsh_inv (matmulB (2 * C) ash lsh_inv_T)

/-- The eigenvalues returned by the symmetric eigensolver on `C_h`. -/
def esOf (o : Oracles) (C : ℕ) (ash bsh : BlockT) : T3 :=
  (o.symeig (cshOf o C ash bsh)).1

/-- The eigenvector matrix returned by the symmetric eigensolver on `C_h`. -/
def yshOf (o : Oracles) (C : ℕ) (ash bsh : BlockT) : BlockT :=
  (o.symeig (cshOf o C ash bsh)).2

/-- `ds_h`: `torch.zeros` with the eigenvalues scattered on the diagonal. -/
def dshOf (o : Oracles) (C : ℕ) (ash bsh : BlockT) : BlockT :=
  fun b k r c => if r = c ∧ r < 2 * C then esOf o C ash bsh b k r else 0

/-- `vs_h = (L⁻¹)ᵗ ys_hᵗ`: the un-whitened eigenvectors. -/
def vshOf (o : Oracles) (C : ℕ) (ash bsh : BlockT) : BlockT :=
  matmulB (2 * C) (transposeB (o.inv (o.chol bsh))) (transposeB (yshOf o C ash bsh))

/-- The pair `(vs, ds)` decoded by `ginv` from `vs_h` and `ds_h`. -/
def pipeline (o : Oracles) (C : ℕ) (ash bsh : BlockT) : CMatT × CMatT :=
  (ginv C (vshOf o C ash bsh), ginv C (dshOf o C ash bsh))

/-- `EigenH.forward`: encode `a` (and `b`, or the default identity), whiten,
eigendecompose, un-whiten, decode. -/
def forward (P : ℕ) (o : Oracles) (a : PackedT) (bopt : Option PackedT) :
    Except Err (CMatT × CMatT) := do
  let ash ← f P a
  let bsh ← bshE P bopt
  pure (pipeline o (nChannels P) ash bsh)

theorem forward_ok {P : ℕ} (o : Oracles) (a : PackedT) (bopt : Option PackedT)
    (hP : fGuard P) :
    forward P o a bopt =
      Except.ok (pipeline o (nChannels P) (fBlock P a) (bshVal P bopt)) := by
  cases bopt with
  | none => simp [forward, f, hP, bshE, bshVal, Bind.bind, Except.bind, pure, Except.pure]
  | some bb => simp [forward, f, hP, bshE, bshVal, Bind.bind, Except.bind, pure, Except.pure]

/-- The packed Hermitian encoding of the identity matrix: real part `1` at
every diagonal packed position, `0` elsewhere and on the imaginary plane. -/
def packedId (P : ℕ) : PackedT := fun _ _ comp p =>
  if comp = 0 ∧ p < P ∧
      ((triu (nChannels P)).getD p (0, 0)).1 = ((triu (nChannels P)).getD p (0, 0)).2
  then 1 else 0

/-- The `b = None` branch (complex identity encoded by `g`) and the explicit
branch on the packed identity (encoded by `f`) build the same `B_h`. -/
theorem g_eye_eq_fBlock_packedId {P : ℕ} (hP : fGuard P) :
    g (nChannels P) (eye (nChannels P)) = fBlock P (packedId P) := by
  have hlen := fGuard_length hP
  funext bi k r c
  show g (nChannels P) (eye (nChannels P)) bi k r c =
    fSlice (nChannels P) (fun comp p => packedId P bi k comp p) r c
  by_cases hrc : r < 2 * nChannels P ∧ c < 2 * nChannels P
  · obtain ⟨a, ha⟩ : ∃ a, r = a * 2 ∨ r = a * 2 + 1 := ⟨r / 2, by omega⟩
    obtain ⟨b, hb⟩ : ∃ b, c = b * 2 ∨ c = b * 2 + 1 := ⟨c / 2, by omega⟩
    have hw : ∀ p, p < (triu (nChannels P)).length → packedId P bi k 1 p = 0 := by
      intro p _
      simp [packedId]
    have hw0 : ∀ p i j, p < (triu (nChannels P)).length →
        (triu (nChannels P)).getD p (0, 0) = (i, j) →
        packedId P bi k 0 p = if i = j then (1 : ℚ) else 0 := by
      intro p i j hp hpair
      simp only [packedId, hpair]
      by_cases hd : i = j
      · simp [hd, hlen ▸ hp]
      · simp [hd]
    rcases ha with rfl | rfl <;> rcases hb with rfl | rfl
    · have hm1 : (a * 2) % 2 = 0 := by omega
      have hm2 : (b * 2) % 2 = 0 := by omega
      have hd1 : (a * 2) / 2 = a := by omega
      have hd2 : (b * 2) / 2 = b := by omega
      have hge : g (nChannels P) (eye (nChannels P)) bi k (a * 2) (b * 2) =
          (if a = b then (1 : ℚ) else 0) := by
        have hc1 : a < nChannels P := by omega
        have hc2 : b < nChannels P := by omega
        by_cases hd : a = b
        · simp [g, hrc, hm1, hm2, hd1, hd2, eye, hd, hc1, hc2]
        · simp [g, hrc, hm1, hm2, hd1, hd2, eye, hd]
      rcases le_or_lt a b with hab | hba
      · obtain ⟨p, hp, hpair⟩ := @exists_triu_pos (nChannels P) a b hab (by omega)
        have h := (fSlice_ee (nChannels P) (fun comp q => packedId P bi k comp q)
          hab (by omega) hp hpair).1
        rw [h, hw0 p a b hp hpair, hge]
      · obtain ⟨p, hp, hpair⟩ := @exists_triu_pos (nChannels P) b a hba.le (by omega)
        have h := (fSlice_ee (nChannels P) (fun comp q => packedId P bi k comp q)
          hba.le (by omega) hp hpair).2
        rw [h, hw0 p b a hp hpair, hge]
        simp [eq_comm]
    · have hm1 : (a * 2) % 2 = 0 := by omega
      have hm2 : (b * 2 + 1) % 2 = 1 := by omega
      have hd1 : (a * 2) / 2 = a := by omega
      have hd2 : (b * 2 + 1) / 2 = b := by omega
      have hge : g (nChannels P) (eye (nChannels P)) bi k (a * 2) (b * 2 + 1) = 0 := by
        simp [g, hrc, hm1, hm2, hd1, hd2, eye]
      rcases le_or_lt a b with hab | hba
      · obtain ⟨p, hp, hpair⟩ := @exists_triu_pos (nChannels P) a b hab (by omega)
        have h := (fSlice_eo (nChannels P) (fun comp q => packedId P bi k comp q)
          hab (by omega) hp hpair).2
        rw [h, hw p hp, hge]
        by_cases hd : a = b <;> simp [hd]
      · obtain ⟨p, hp, hpair⟩ := @exists_triu_pos (nChannels P) b a hba.le (by omega)
        have h := (fSlice_eo (nChannels P) (fun comp q => packedId P bi k comp q)
          hba.le (by omega) hp hpair).1
        rw [h, hw p hp, hge]
    · have hm1 : (a * 2 + 1) % 2 = 1 := by omega
      have hm2 : (b * 2) % 2 = 0 := by omega
      have hd1 : (a * 2 + 1) / 2 = a := by omega
      have hd2 : (b * 2) / 2 = b := by omega
      have hge : g (nChannels P) (eye (nChannels P)) bi k (a * 2 + 1) (b * 2) = 0 := by
        simp [g, hrc, hm1, hm2, hd1, hd2, eye]
      rcases le_or_lt a b with hab | hba
      · obtain ⟨p, hp, hpair⟩ := @exists_triu_pos (nChannels P) a b hab (by omega)
        have h := (fSlice_oe (nChannels P) (fun comp q => packedId P bi k comp q)
          hab (by omega) hp hpair).1
        rw [h, hw p hp, hge]
      · obtain ⟨p, hp, hpair⟩ := @exists_triu_pos (nChannels P) b a hba.le (by omega)
        have h := (fSlice_oe (nChannels P) (fun comp q => packedId P bi k comp q)
          hba.le (by omega) hp hpair).2
        rw [h, hw p hp, hge]
        by_cases hd : b = a <;> simp [hd]
    · have hm1 : (a * 2 + 1) % 2 = 1 := by omega
      have hm2 : (b * 2 + 1) % 2 = 1 := by omega
      have hd1 : (a * 2 + 1) / 2 = a := by omega
      have hd2 : (b * 2 + 1) / 2 = b := by omega
      have hge : g (nChannels P) (eye (nChannels P)) bi k (a * 2 + 1) (b * 2 + 1) =
          (if a = b then (1 : ℚ) else 0) := by
        have hc1 : a < nChannels P := by omega
        have hc2 : b < nChannels P := by omega
        by_cases hd : a = b
        · simp [g, hrc, hm1, hm2, hd1, hd2, eye, hd, hc1, hc2]
        · simp [g, hrc, hm1, hm2, hd1, hd2, eye, hd]
      rcases le_or_lt a b with hab | hba
      · obtain ⟨p, hp, hpair⟩ := @exists_triu_pos (nChannels P) a b hab (by omega)
        have h := (fSlice_oo (nChannels P) (fun comp q => packedId P bi k comp q)
          hab (by omega) hp hpair).1
        rw [h, hw0 p a b hp hpair, hge]
      · obtain ⟨p, hp, hpair⟩ := @exists_triu_pos (nChannels P) b a hba.le (by omega)
        have h := (fSlice_oo (nChannels P) (fun comp q => packedId P bi k comp q)
          hba.le (by omega) hp hpair).2
        rw [h, hw0 p b a hp hpair, hge]
        simp [eq_comm]
  · rw [fSlice_oob (nChannels P) (fun comp p => packedId P bi k comp p)
      (show 2 * nChannels P ≤ r ∨ 2 * nChannels P ≤ c by omega)]
    simp only [g]
    rw [if_neg hrc]

/-- C2 (default-`b` equivalence): calling `forward` with `b` absent returns
the same `(vs, ds)` as calling it with `b` set to the packed Hermitian
encoding of the identity matrix, for every oracle choice. -/
theorem forward_default_b (P : ℕ) (o : Oracles) (a : PackedT) (hP : fGuard P) :
    forward P o a none = forward P o a (some (packedId P)) := by
  rw [forward_ok o a none hP, forward_ok o a (some (packedId P)) hP]
  simp only [bshVal]
  rw [g_eye_eq_fBlock_packedId hP]

/-- A concrete oracle choice used by witnesses. -/
def oEx : Oracles :=
  { chol := id, inv := id,
    symeig := fun m => (fun b k r => m b k r r, m) }

theorem forward_default_b_witness :
    forward 3 oEx wsHermEx none = forward 3 oEx wsHermEx (some (packedId 3)) :=
  forward_default_b 3 oEx wsHermEx (by decide)

/-- C9 (`ds` is a real diagonal decode): whenever `forward` succeeds, the
returned `ds` has imaginary component `0` everywhere, real component `0` off
the diagonal, and real diagonal `ds[i][i] = es[2i]`, for every value the
external symmetric eigensolver returns. -/
theorem forward_ds_diagonal (P : ℕ) (o : Oracles) (a : PackedT)
    (bopt : Option PackedT) (hP : fGuard P) (b k i j : ℕ)
    (hi : i < nChannels P) (hj : j < nChannels P) :
    forward P o a bopt =
      Except.ok (pipeline o (nChannels P) (fBlock P a) (bshVal P bopt)) ∧
    (pipeline o (nChannels P) (fBlock P a) (bshVal P bopt)).2 b k i j 1 = 0 ∧
    (i ≠ j → (pipeline o (nChannels P) (fBlock P a) (bshVal P bopt)).2 b k i j 0 = 0) ∧
    (pipeline o (nChannels P) (fBlock P a) (bshVal P bopt)).2 b k i i 0 =
      esOf o (nChannels P) (fBlock P a) (bshVal P bopt) b k (2 * i) := by
  refine ⟨forward_ok o a bopt hP, ?_, ?_, ?_⟩
  · simp only [pipeline, ginv, dshOf]
    rw [if_pos ⟨hi, hj⟩]
    norm_num
    intro hcon
    omega
  · intro hne
    simp only [pipeline, ginv, dshOf]
    rw [if_pos ⟨hi, hj⟩]
    norm_num
    intro hcon
    omega
  · simp only [pipeline, ginv, dshOf]
    rw [if_pos ⟨hi, hi⟩]
    norm_num
    omega

theorem forward_ds_diagonal_witness :
    forward 3 oEx wsHermEx none =
      Except.ok (pipeline oEx (nChannels 3) (fBlock 3 wsHermEx) (bshVal 3 none)) ∧
    (pipeline oEx (nChannels 3) (fBlock 3 wsHermEx) (bshVal 3 none)).2 0 0 0 1 1 = 0 ∧
    (0 ≠ 1 → (pipeline oEx (nChannels 3) (fBlock 3 wsHermEx) (bshVal 3 none)).2 0 0 0 1 0 = 0) ∧
    (pipeline oEx (nChannels 3) (fBlock 3 wsHermEx) (bshVal 3 none)).2 0 0 0 0 0 =
      esOf oEx (nChannels 3) (fBlock 3 wsHermEx) (bshVal 3 none) 0 0 (2 * 0) :=
  forward_ds_diagonal 3 oEx wsHermEx none (by decide) 0 0 0 1 (by decide) (by decide)

/-- C6 amended: on a non-triangular packed length the codec `f` (and hence
`forward`) fails, but with the torch broadcast shape-mismatch error from the
indexed assignment — the module performs no explicit validation and raises
no `ValueError`/`ShapeError` of its own; the rounded channel count is
computed silently before the failing assignment. -/
theorem f_nontriangular_fails (P : ℕ) (ws : PackedT)
    (h : ¬ ∃ c, P = c * (c + 1) / 2) :
    f P ws = Except.error Err.broadcastMismatch ∧
    ∀ (o : Oracles) (bopt : Option PackedT),
      forward P o ws bopt = Except.error Err.broadcastMismatch := by
  have hg : ¬ fGuard P := by
    intro hg
    rcases hg with hl | h1
    · exact h (triangular_iff_length.2 hl)
    · exact h ⟨1, by omega⟩
  refine ⟨by simp [f, hg], ?_⟩
  intro o bopt
  simp [forward, f, hg, Bind.bind, Except.bind]

/-- All-zero packed input used by the C6 theorems. -/
def wsZero : PackedT := fun _ _ _ _ => 0

theorem f_nontriangular_fails_witness :
    f 2 wsZero = Except.error Err.broadcastMismatch ∧
    ∀ (o : Oracles) (bopt : Option PackedT),
      forward 2 o wsZero bopt = Except.error Err.broadcastMismatch :=
  f_nontriangular_fails 2 wsZero
    (fun hEx => absurd (triangular_iff_length.1 hEx) (by decide))

/-- C6 counterexample: at the non-triangular packed length `P = 2` the code
does not raise a `ShapeError`-style validation error (`Err.valueError`); it
silently rounds the channel count to `2` and then the indexed assignment
fails with the library's broadcast mismatch. -/
theorem f_nontriangular_counterexample :
    f 2 wsZero = Except.error Err.broadcastMismatch ∧
    f 2 wsZero ≠ Except.error Err.valueError ∧
    nChannels 2 = 2 := by
  have h1 : f 2 wsZero = Except.error Err.broadcastMismatch := by
    unfold f
    rw [if_neg (by decide)]
  refine ⟨h1, ?_, by decide⟩
  rw [h1]
  intro hcon
  exact absurd (Except.error.inj hcon) (by decide)

/-! ### `EigenH.pos_def` -/

/-- The per-`(batch, bin)` trace computed by `pos_def`: the sum of the real
packed entries at the diagonal positions of the `triu` enumeration. -/
def traceW (P : ℕ) (ws : PackedT) (b k : ℕ) : ℚ :=
  ∑ p ∈ Finset.range (triu (nChannels P)).length,
    if ((triu (nChannels P)).getD p (0, 0)).1 = ((triu (nChannels P)).getD p (0, 0)).2
    then ws b k 0 p else 0

/-- `EigenH.pos_def`: clone the input and add `alpha * trace + eps` to every
real diagonal packed entry; all other entries are copied unchanged.  (The
source clones the input tensor, so the caller's array is never mutated; in
this pure embedding the input is untouched by construction.) -/
def pos_def (P : ℕ) (ws : PackedT) (alpha eps : ℚ) : PackedT :=
  fun b k comp p =>
    if comp = 0 ∧ p < (triu (nChannels P)).length ∧
        ((triu (nChannels P)).getD p (0, 0)).1 = ((triu (nChannels P)).getD p (0, 0)).2
    then ws b k 0 p + (alpha * traceW P ws b k + eps)
    else ws b k comp p

end EigenH

/-- Index of the first occurrence of a pair in a pair list (the packed
position at which a `triu` pair is stored). -/
def idxOfPair (l : List (ℕ × ℕ)) (x : ℕ × ℕ) : ℕ :=
  match l with
  | [] => 0
  | y :: t => if y = x then 0 else idxOfPair t x + 1

theorem idxOfPair_spec {l : List (ℕ × ℕ)} {x : ℕ × ℕ} (hx : x ∈ l) :
    idxOfPair l x < l.length ∧ l.getD (idxOfPair l x) (0, 0) = x := by
  induction l with
  | nil => cases hx
  | cons y t ih =>
    by_cases hy : y = x
    · subst hy
      exact ⟨by simp [idxOfPair], by simp [idxOfPair]⟩
    · have hx' : x ∈ t := by
        rcases List.mem_cons.1 hx with h | h
        · exact absurd h.symm hy
        · exact h
      obtain ⟨h1, h2⟩ := ih hx'
      refine ⟨by simp only [idxOfPair, if_neg hy, List.length_cons]; omega, ?_⟩
      simp only [idxOfPair, if_neg hy]
      rw [List.getD_cons_succ]
      exact h2

namespace EigenH

/-- The diagonal packed positions are enumerated by the channel index: the
masked trace over packed positions equals the sum over channels `i < C` of
the entry at the packed position of the pair `(i, i)`. -/
theorem traceW_eq_sum_diag (P : ℕ) (ws : PackedT) (b k : ℕ) :
    traceW P ws b k =
      ∑ i ∈ Finset.range (nChannels P), ws b k 0 (idxOfPair (triu (nChannels P)) (i, i)) := by
  rw [traceW, Finset.sum_ite, Finset.sum_const_zero, add_zero]
  refine Finset.sum_nbij' (fun p => ((triu (nChannels P)).getD p (0, 0)).1)
    (fun ch => idxOfPair (triu (nChannels P)) (ch, ch)) ?_ ?_ ?_ ?_ ?_
  · intro p hp
    rw [Finset.mem_filter, Finset.mem_range] at hp
    rw [Finset.mem_range]
    show ((triu (nChannels P)).getD p (0, 0)).1 < nChannels P
    have := getD_triu_le hp.1
    omega
  · intro ch hch
    rw [Finset.mem_range] at hch
    have hmem : (ch, ch) ∈ triu (nChannels P) := mem_triu.2 ⟨le_refl _, hch⟩
    obtain ⟨hlt, hgd⟩ := idxOfPair_spec hmem
    rw [Finset.mem_filter, Finset.mem_range]
    exact ⟨hlt, by rw [hgd]⟩
  · intro p hp
    rw [Finset.mem_filter, Finset.mem_range] at hp
    obtain ⟨hplen, hdiag⟩ := hp
    rcases hpq : (triu (nChannels P)).getD p (0, 0) with ⟨i, j⟩
    rw [hpq] at hdiag
    simp only at hdiag
    subst hdiag
    have hmem : (i, i) ∈ triu (nChannels P) := by
      rw [← hpq]
      exact getD_triu_mem hplen
    obtain ⟨hlt, hgd⟩ := idxOfPair_spec hmem
    simp only [hpq]
    exact getD_triu_inj hlt hplen (by rw [hgd, hpq])
  · intro ch hch
    rw [Finset.mem_range] at hch
    have hmem : (ch, ch) ∈ triu (nChannels P) := mem_triu.2 ⟨le_refl _, hch⟩
    obtain ⟨hlt, hgd⟩ := idxOfPair_spec hmem
    show ((triu (nChannels P)).getD (idxOfPair (triu (nChannels P)) (ch, ch)) (0, 0)).1 = ch
    rw [hgd]
  · intro p hp
    rw [Finset.mem_filter, Finset.mem_range] at hp
    obtain ⟨hplen, hdiag⟩ := hp
    rcases hpq : (triu (nChannels P)).getD p (0, 0) with ⟨i, j⟩
    rw [hpq] at hdiag
    simp only at hdiag
    subst hdiag
    have hmem : (i, i) ∈ triu (nChannels P) := by
      rw [← hpq]
      exact getD_triu_mem hplen
    obtain ⟨hlt, hgd⟩ := idxOfPair_spec hmem
    have heq : idxOfPair (triu (nChannels P)) (i, i) = p :=
      getD_triu_inj hlt hplen (by rw [hgd, hpq])
    simp only [hpq]
    show ws b k 0 p = ws b k 0 (idxOfPair (triu (nChannels P)) (i, i))
    rw [heq]

/-- C8 (`pos_def` frame effect): the returned array equals the input at
every entry except the real diagonal packed entries, to each of which
`alpha * trace + eps` is added, where `trace` is the per-`(batch, bin)` sum
of the real diagonal packed entries of the input. -/
theorem pos_def_characterization (P : ℕ) (ws : PackedT) (alpha eps : ℚ)
    (hP : fGuard P) (b k comp p : ℕ) (_hcomp : comp < 2) (hp : p < P) :
    pos_def P ws alpha eps b k comp p =
      (if comp = 0 ∧
          ((triu (nChannels P)).getD p (0, 0)).1 = ((triu (nChannels P)).getD p (0, 0)).2
       then ws b k comp p +
         (alpha * (∑ i ∈ Finset.range (nChannels P),
            ws b k 0 (idxOfPair (triu (nChannels P)) (i, i))) + eps)
       else ws b k comp p) := by
  have hlen := fGuard_length hP
  have hp' : p < (triu (nChannels P)).length := by omega
  by_cases hcond : comp = 0 ∧
      ((triu (nChannels P)).getD p (0, 0)).1 = ((triu (nChannels P)).getD p (0, 0)).2
  · rw [if_pos hcond, pos_def, if_pos ⟨hcond.1, hp', hcond.2⟩,
      ← traceW_eq_sum_diag, hcond.1]
  · rw [if_neg hcond, pos_def, if_neg ?_]
    intro hcon
    exact hcond ⟨hcon.1, hcon.2.2⟩

theorem pos_def_characterization_witness :
    pos_def 3 wsHermEx (1 / 1000) (1 / 100000) 0 0 0 0 =
      (if (0 : ℕ) = 0 ∧
          ((triu (nChannels 3)).getD 0 (0, 0)).1 = ((triu (nChannels 3)).getD 0 (0, 0)).2
       then wsHermEx 0 0 0 0 +
         ((1 / 1000) * (∑ i ∈ Finset.range (nChannels 3),
            wsHermEx 0 0 0 (idxOfPair (triu (nChannels 3)) (i, i))) + 1 / 100000)
       else wsHermEx 0 0 0 0) :=
  pos_def_characterization 3 wsHermEx (1 / 1000) (1 / 100000) (by decide)
    0 0 0 0 (by decide) (by decide)

end EigenH

/-! ### `notch_filter`

`torch.sin` and `torch.blackman_window` are external elementwise oracles
(`sinT : ℚ → ℚ` and `blackman : width → index → ℚ`).  Division is exact
rational division (whose total-function semantics never raises, exactly as
torch float division never raises). -/

/-- The `sinc` helper of `notch_filter`: apply `sin x / x` elementwise,
except at the middle index `pad`, whose value (the `0/0` position) is set to
`1`. -/
def sincList (sinT : ℚ → ℚ) (pad : ℕ) (xs : List ℚ) : List ℚ :=
  ((xs.take pad).map (fun v => sinT v / v)) ++ [1] ++
    ((xs.drop (pad + 1)).map (fun v => sinT v / v))

theorem sincList_length (sinT : ℚ → ℚ) (pad n : ℕ) (xs : List ℚ)
    (hx : xs.length = n) (hpad : pad + 1 ≤ n) :
    (sincList sinT pad xs).length = n := by
  simp [sincList, hx]
  omega

/-- The kernel computed by `notch_filter` after its asserts pass. -/
def notch_kernel (sinT : ℚ → ℚ) (blackman : ℕ → ℕ → ℚ)
    (notch_freq : ℚ) (filter_width : ℕ) (notch_width : ℚ) : List ℚ :=
  let pad := filter_width / 2
  let inputs : List ℚ := (List.range filter_width).map (fun (t : ℕ) => (t : ℚ) - (pad : ℚ))
  let nf := notch_freq + notch_width
  let window := (List.range filter_width).map (blackman filter_width)
  let hlpf0 := sincList sinT pad (inputs.map (fun v => 3 * (nf - notch_width) * v))
  let hlpf1 := List.zipWith (· * ·) hlpf0 window
  let hlpf := hlpf1.map (fun v => v / hlpf1.sum)
  let hhpf0 := sincList sinT pad (inputs.map (fun v => 3 * (nf + notch_width) * v))
  let hhpf1 := List.zipWith (· * ·) hhpf0 window
  let hhpf2 := hhpf1.map (fun v => v / (-hhpf1.sum))
  let hhpf := hhpf2.set pad (hhpf2.getD pad 0 + 1)
  List.zipWith (· + ·) hlpf hhpf

/-- `notch_filter`: assert `0 < notch_freq ≤ 1` and `filter_width` odd, then
build the kernel as the sum of a windowed low-pass and a spectrally inverted
windowed high-pass sinc filter. -/
def notch_filter (sinT : ℚ → ℚ) (blackman : ℕ → ℕ → ℚ)
    (notch_freq : ℚ) (filter_width : ℕ) (notch_width : ℚ) :
    Except Err (List ℚ) :=
  if ¬(0 < notch_freq ∧ notch_freq ≤ 1) then Except.error Err.assertionError
  else if filter_width % 2 = 0 then Except.error Err.assertionError
  else Except.ok (notch_kernel sinT blackman notch_freq filter_width notch_width)

theorem notch_kernel_length (sinT : ℚ → ℚ) (blackman : ℕ → ℕ → ℚ)
    (notch_freq : ℚ) (filter_width : ℕ) (notch_width : ℚ)
    (hodd : filter_width % 2 = 1) :
    (notch_kernel sinT blackman notch_freq filter_width notch_width).length =
      filter_width := by
  have hpad : filter_width / 2 + 1 ≤ filter_width := by omega
  have hs1 : ∀ c : ℚ,
      (sincList sinT (filter_width / 2)
        (((List.range filter_width).map
            (fun (t : ℕ) => (t : ℚ) - ((filter_width / 2 : ℕ) : ℚ))).map
          (fun v => c * v))).length = filter_width := by
    intro c
    apply sincList_length
    · rw [List.length_map, List.length_map, List.length_range]
    · exact hpad
  simp only [notch_kernel, List.length_zipWith, List.length_map, List.length_set,
    List.length_range, hs1]
  omega

/-- C7 (`notch_filter` precondition): the call fails (with an assertion
error) exactly when `filter_width` is even or `notch_freq` lies outside
`(0, 1]`; for odd width and in-range frequency it returns a kernel of length
`filter_width` without raising, for every `sin`/window oracle. -/
theorem notch_filter_error_iff (sinT : ℚ → ℚ) (blackman : ℕ → ℕ → ℚ)
    (notch_freq : ℚ) (filter_width : ℕ) (notch_width : ℚ) :
    ((notch_filter sinT blackman notch_freq filter_width notch_width =
        Except.error Err.assertionError) ↔
      (filter_width % 2 = 0 ∨ ¬(0 < notch_freq ∧ notch_freq ≤ 1))) ∧
    (filter_width % 2 = 1 → 0 < notch_freq → notch_freq ≤ 1 →
      ∃ kernel, notch_filter sinT blackman notch_freq filter_width notch_width =
          Except.ok kernel ∧ kernel.length = filter_width) := by
  constructor
  · by_cases h1 : 0 < notch_freq ∧ notch_freq ≤ 1
    · by_cases h2 : filter_width % 2 = 0
      · simp [notch_filter, h1, h2]
      · simp [notch_filter, h1, h2]
    · simp [notch_filter, h1]
  · intro hodd hf0 hf1
    refine ⟨notch_kernel sinT blackman notch_freq filter_width notch_width, ?_, ?_⟩
    · have hne : ¬(filter_width % 2 = 0) := by omega
      simp [notch_filter, hf0, hf1, hne]
    · exact notch_kernel_length sinT blackman notch_freq filter_width notch_width hodd

theorem notch_filter_error_iff_witness :
    ∃ kernel, notch_filter (fun _ => 0) (fun _ _ => 1) (1 / 4) 101 (1 / 20) =
        Except.ok kernel ∧ kernel.length = 101 :=
  (notch_filter_error_iff (fun _ => 0) (fun _ _ => 1) (1 / 4) 101 (1 / 20)).2
    (by decide) (by norm_num) (by norm_num)

/-! ### `convolve1d`

The pad primitive, the direct `conv1d` primitive and the FFT pair are
external oracles.  The tensors here are rank-3 (`[batch, time, channel]` on
the public interface, transposed to `[batch, channel, time]` internally), so
the source's explicit rank check cannot fire; `padding` is either a plain
integer or a `(left, right)` tuple, as in the source. -/

/-- The `padding` argument of `convolve1d`: a plain integer or a
`(pad_left, pad_right)` tuple. -/
inductive Padding where
  | int (n : ℕ)
  | tup (left right : ℕ)

/-- The FFT collaborators `torch.rfft` / `torch.irfft` (one-dimensional,
onesided), acting on `[batch, channel, time]` tensors; `rfft` appends a
final real/imaginary component axis. -/
structure FftOracles where
  rfft : T3 → T4
  irfft : T4 → T3

/-- `convolve1d`: transpose time last, apply the pad primitive when the
padding is a tuple, then either multiply in the frequency domain (`use_fft`)
after zero-extending and rolling the kernel, or call the direct `conv1d`
primitive, forwarding the integer padding to it.  `Tw`, `Tk` are the time
lengths of the waveform and kernel. -/
def convolve1d
    (padPrim : ℕ × ℕ → String → T3 → T3)
    (convPrim : T3 → T3 → ℕ → ℕ → ℕ → T3)
    (fft : FftOracles)
    (Tw Tk : ℕ) (waveform kernel : T3)
    (padding : Padding) (pad_type : String)
    (stride groups : ℕ) (use_fft : Bool) (rotation_index : ℕ) : T3 :=
  let w1 : T3 := fun b c t => waveform b t c
  let k1 : T3 := fun b c t => kernel b t c
  let w2 : T3 :=
    match padding with
    | Padding.tup l r => padPrim (l, r) pad_type w1
    | Padding.int _ => w1
  let tw2 : ℕ :=
    match padding with
    | Padding.tup l r => Tw + l + r
    | Padding.int _ => Tw
  let res : T3 :=
    if use_fft then
      let tk2 : ℕ := min Tk tw2
      let zl : ℕ := tw2 - tk2
      let rot : ℕ := min rotation_index tk2
      let k2 : T3 := fun b c t =>
        if t < tk2 - rot then k1 b c (t + rot)
        else if t < tk2 - rot + zl then 0
        else k1 b c (t - (tk2 - rot + zl))
      let fs : T4 := fft.rfft w2
      let fk : T4 := fft.rfft k2
      let fr : T4 := fun b c i comp =>
        if comp = 0 then fs b c i 0 * fk b c i 0 - fs b c i 1 * fk b c i 1
        else if comp = 1 then fs b c i 0 * fk b c i 1 + fs b c i 1 * fk b c i 0
        else 0
      fft.irfft fr
    else
      convPrim w2 k1 stride groups
        (match padding with
         | Padding.int n => n
         | Padding.tup _ _ => 0)
  fun b t c => res b c t

/-- C10 (FFT path ignores integer padding): with `use_fft = true` and an
integer `padding`, `convolve1d` performs no padding at all — the result does
not depend on the integer value, nor on the pad primitive, the pad mode, the
direct-convolution primitive, the stride or the groups; the FFT pipeline is
applied to the unpadded signal. -/
theorem convolve1d_fft_ignores_int_padding
    (padPrim padPrim' : ℕ × ℕ → String → T3 → T3)
    (convPrim convPrim' : T3 → T3 → ℕ → ℕ → ℕ → T3)
    (fft : FftOracles) (Tw Tk : ℕ) (waveform kernel : T3)
    (pt pt' : String) (s s' gp gp' rot n m : ℕ) :
    convolve1d padPrim convPrim fft Tw Tk waveform kernel
        (Padding.int n) pt s gp true rot =
      convolve1d padPrim' convPrim' fft Tw Tk waveform kernel
        (Padding.int m) pt' s' gp' true rot := rfl

end SignalProcessing
